import Mathlib

/-!
Verification of the PDF batch-renamer (`src/app.py`).

Python strings are modelled as `List Char`; the pdfplumber collaborator is
modelled as a function from raw bytes to `Except Unit (List Str)` (ordered page
texts, or a parse failure).  The regular expressions of the source are
hand-compiled into executable matchers with Python `re` semantics (leftmost
match, greedy/non-greedy backtracking, `re.IGNORECASE` where the source sets
it).
-/

namespace BunnyApp

abbrev Str := List Char

/-- Python whitespace, as matched by `str.strip()` and the regex class `\s`
(ASCII range). -/
def isWs (c : Char) : Bool :=
  c == ' ' || c == '\t' || c == '\n' || c == '\r' || c == '\x0b' || c == '\x0c'

/-- Python `str.strip()`: remove leading and trailing whitespace. -/
def pyStrip (l : Str) : Str :=
  ((l.dropWhile isWs).reverse.dropWhile isWs).reverse

/-- Python `name.rsplit('.', 1)[0]`: everything before the last dot, or the
whole string when there is no dot. -/
def stem (n : Str) : Str :=
  match n.reverse.dropWhile (fun c => !(c == '.')) with
  | [] => n
  | _ :: rest => rest.reverse

/-- Decimal digit character, as produced by Python `str(int)` digit by digit. -/
def digitChar10 (d : Nat) : Char :=
  if d = 0 then '0' else if d = 1 then '1' else if d = 2 then '2'
  else if d = 3 then '3' else if d = 4 then '4' else if d = 5 then '5'
  else if d = 6 then '6' else if d = 7 then '7' else if d = 8 then '8' else '9'

/-- Decimal rendering of a natural number, fuelled so that it evaluates by
structural recursion; any fuel above the number itself is enough. -/
def digits10Go : Nat → Nat → Str
  | 0, _ => []
  | fuel + 1, n =>
    if n < 10 then [digitChar10 n]
    else digits10Go fuel (n / 10) ++ [digitChar10 (n % 10)]

/-- Python `str(n)` on a natural number (decimal, no sign). -/
def natStr (n : Nat) : Str := digits10Go (n + 1) n

/-- Numeric value of a digit character (inverse of `digitChar10`). -/
def charVal (c : Char) : Nat := c.toNat - 48

/-- Decimal value of a digit string; inverse of `digits10`. -/
def val10 (l : Str) : Nat := l.foldl (fun a c => 10 * a + charVal c) 0

/-- Character class kept by the tab-1 sanitizer
`re.sub(r"[^A-Za-z0-9\-\_\.\s\(\)]", "_", ...)`. -/
def allowed1 (c : Char) : Bool :=
  c.isAlpha || c.isDigit || c == '-' || c == '_' || c == '.' || isWs c ||
    c == '(' || c == ')'

/-- Character class kept by the tab-2 sanitizer (tab 1's class plus `/`). -/
def allowed2 (c : Char) : Bool :=
  c.isAlpha || c.isDigit || c == '-' || c == '_' || c == '.' || isWs c ||
    c == '(' || c == ')' || c == '/'

/-- Tab-1 sanitizer: replace every disallowed character with `_`, then
`strip()` (src/app.py line 63). -/
def sanitize1 (s : Str) : Str :=
  pyStrip (s.map (fun c => if allowed1 c then c else '_'))

/-- Tab-2 sanitizer: same with `/` additionally allowed (src/app.py line 165). -/
def sanitize2 (s : Str) : Str :=
  pyStrip (s.map (fun c => if allowed2 c then c else '_'))

/-- The literal `.pdf` extension. -/
def pdfExt : Str := ['.', 'p', 'd', 'f']

/-- Final filename for the `n`-th occurrence (1-indexed) of a sanitized base:
`{safe}.pdf` for the first occurrence, `{safe}_{n-1}.pdf` afterwards
(src/app.py lines 66-69 and 168-171). -/
def mkName (s : Str) (n : Nat) : Str :=
  if n = 1 then s ++ pdfExt else s ++ '_' :: (natStr (n - 1) ++ pdfExt)

/-- The collision resolver: a `defaultdict(int)` of occurrence counts,
threaded through the batch in upload order. -/
def resolve (counts : Str → Nat) : List Str → List Str
  | [] => []
  | s :: rest =>
    let n := counts s + 1
    mkName s n :: resolve (fun t => if t = s then n else counts t) rest

/-- Final filenames of a batch of sanitized base names, counts starting empty. -/
def finalNames (bases : List Str) : List Str :=
  resolve (fun _ => 0) bases

/-- Number of occurrences of `s` in a list of base names. -/
def occCount (s : Str) : List Str → Nat
  | [] => 0
  | t :: r => (if t = s then 1 else 0) + occCount s r

/-! ### The Referensi matcher (`REFERENSI_RE`, src/app.py lines 32-35)

Hand-compiled form of
`re.compile(r"Referensi\s*:\s*([A-Za-z0-9\-\s\(\)]+?)(?=\s*[\r\n]|$|\))", re.IGNORECASE)`
with Python `re` semantics: leftmost matching start position; the `\s*` before
`:` is deterministic (whitespace never equals `:`); the `\s*` before the
capture is greedy with backtracking; the capture is non-greedy (shortest
non-empty run of the class) subject to the lookahead. -/

/-- Case-insensitive character comparison (ASCII `re.IGNORECASE`). -/
def lowerEq (p c : Char) : Bool := p.toLower == c.toLower

/-- Does the text start with the literal pattern, case-insensitively? -/
def matchesCI : Str → Str → Bool
  | [], _ => true
  | _ :: _, [] => false
  | p :: ps, c :: cs => lowerEq p c && matchesCI ps cs

/-- Capture-group character class `[A-Za-z0-9\-\s\(\)]`. -/
def inCref (c : Char) : Bool :=
  c.isAlpha || c.isDigit || c == '-' || isWs c || c == '(' || c == ')'

/-- The lookahead `(?=\s*[\r\n]|$|\))` tested at a suffix of the text. -/
def lookStop (rest : Str) : Bool :=
  (rest.takeWhile isWs).any (fun c => c == '\r' || c == '\n') ||
    rest.isEmpty || rest.head? == some ')'

/-- Non-greedy capture: shortest non-empty class-run prefix whose remainder
satisfies the lookahead; `none` when no length works. -/
def capGo (acc : Str) : Str → Option Str
  | [] => none
  | c :: rs =>
    if inCref c then
      if lookStop rs then some (acc ++ [c]) else capGo (acc ++ [c]) rs
    else none

/-- Backtracking of the greedy `\s*` before the capture: consume `b`
characters first, then ever fewer. -/
def tryFrom (u : Str) : Nat → Option Str
  | 0 => capGo [] u
  | b + 1 =>
    match capGo [] (u.drop (b + 1)) with
    | some g => some g
    | none => tryFrom u b

/-- One attempt of `REFERENSI_RE` at the current position. -/
def attemptRef (t : Str) : Option Str :=
  if matchesCI ['r', 'e', 'f', 'e', 'r', 'e', 'n', 's', 'i'] t then
    match (t.drop 9).dropWhile isWs with
    | ':' :: rest => tryFrom rest (rest.takeWhile isWs).length
    | _ => none
  else none

/-- `re.search` with `REFERENSI_RE`: try every start position left to right. -/
def searchRef : Str → Option Str
  | [] => none
  | c :: rest =>
    match attemptRef (c :: rest) with
    | some g => some g
    | none => searchRef rest

/-- The page loop of `extract_referensi_from_bytes` (src/app.py lines 43-48):
first matching page wins and its group is stripped; later pages are not
scanned; `None` when no page matches. -/
def refFromPages : List Str → Option Str
  | [] => none
  | p :: ps =>
    match searchRef p with
    | some m => some (pyStrip m)
    | none => refFromPages ps

/-- `extract_referensi_from_bytes` (src/app.py lines 40-51): the broad
`except` turns any collaborator failure into `None`. -/
def extract_referensi_from_bytes (parse : List Nat → Except Unit (List Str))
    (raw : List Nat) : Option Str :=
  match parse raw with
  | Except.error _ => none
  | Except.ok pages => refFromPages pages

/-- The eleven characters `Referensi: ` as they appear in a document. -/
def refMarker : Str := ['R', 'e', 'f', 'e', 'r', 'e', 'n', 's', 'i', ':', ' ']

/-- Literal case-insensitive containment of a token, used to state C5. -/
def containsCI (pat : Str) : Str → Bool
  | [] => matchesCI pat []
  | c :: rest => matchesCI pat (c :: rest) || containsCI pat rest

/-- Occurrence of `Referensi`, optional whitespace, then `:`, starting here. -/
def refTokenAt (t : Str) : Bool :=
  matchesCI ['r', 'e', 'f', 'e', 'r', 'e', 'n', 's', 'i'] t &&
    ((t.drop 9).dropWhile isWs).head? == some ':'

/-- Some position of the text carries `Referensi\s*:`. -/
def hasRefTok : Str → Bool
  | [] => false
  | c :: rest => refTokenAt (c :: rest) || hasRefTok rest

/-! ### The tab-1 (Referensi) processing loop (src/app.py lines 53-76) -/

/-- One per-file result record (`results.append({...})`). -/
structure Record where
  original_name : Str
  new_name : Str
  status : Str
  bytes : List Nat
deriving DecidableEq

/-- The prefix `NO-REFERENSI-`. -/
def noRefPre : Str :=
  ['N', 'O', '-', 'R', 'E', 'F', 'E', 'R', 'E', 'N', 'S', 'I', '-']

/-- Status shown when the referensi is found. -/
def okStatus : Str := ['O', 'K']

/-- Status shown when no referensi is found. -/
def noRefStatus : Str := "No referensi found".data

/-- Base name and status of one tab-1 document (lines 55-61); Python's
`if referensi:` is falsy for both `None` and the empty string. -/
def docBase1 (parse : List Nat → Except Unit (List Str)) (nm : Str)
    (raw : List Nat) : Str × Str :=
  match extract_referensi_from_bytes parse raw with
  | some r => if r = [] then (noRefPre ++ stem nm, noRefStatus) else (r, okStatus)
  | none => (noRefPre ++ stem nm, noRefStatus)

/-- The tab-1 batch loop with its `name_counts` state. -/
def tab1Go (parse : List Nat → Except Unit (List Str)) (counts : Str → Nat) :
    List (Str × List Nat) → List Record
  | [] => []
  | (nm, raw) :: rest =>
    let bs := docBase1 parse nm raw
    let safe := sanitize1 bs.1
    let n := counts safe + 1
    { original_name := nm, new_name := mkName safe n, status := bs.2,
      bytes := raw } ::
      tab1Go parse (fun t => if t = safe then n else counts t) rest

/-- The whole tab-1 batch run: counts start empty. -/
def processReferensi (parse : List Nat → Except Unit (List Str))
    (docs : List (Str × List Nat)) : List Record :=
  tab1Go parse (fun _ => 0) docs

/-- The archive build (lines 98-102 and 200-204): one `writestr` entry per
record, in batch order, keyed by the record's final name. -/
def zipEntries (rs : List Record) : List (Str × List Nat) :=
  rs.foldl (fun acc r => acc ++ [(r.new_name, r.bytes)]) []

/-! ### The tab-2 (Unifikasi) matchers (src/app.py lines 144-146)

`masa`: `re.search(r"Masa\s+Pajak\s*([0-9]{1,2}-[0-9]{4})", text, re.IGNORECASE)`;
`nama`: `re.search(r"A\.2\s+Nama\s*[:\-]?\s*([A-Z0-9\s\.\&\-\(\)]+)", text, re.IGNORECASE)`;
`nomor`: `re.search(r"\b([A-Z0-9]{8,})\s+\d{2}-\d{4}", text)` (case-sensitive). -/

/-- One attempt of the `masa` pattern at the current position.  The `{1,2}`
quantifier is greedy: two digits are tried before one. -/
def attemptMasa (t : Str) : Option Str :=
  if matchesCI ['m', 'a', 's', 'a'] t then
    let r1 := t.drop 4
    if r1.takeWhile isWs = [] then none
    else
      let r2 := r1.dropWhile isWs
      if matchesCI ['p', 'a', 'j', 'a', 'k'] r2 then
        match (r2.drop 5).dropWhile isWs with
        | a :: b :: rest =>
          if a.isDigit then
            if b.isDigit then
              match rest with
              | '-' :: c1 :: c2 :: c3 :: c4 :: _ =>
                if c1.isDigit && c2.isDigit && c3.isDigit && c4.isDigit then
                  some [a, b, '-', c1, c2, c3, c4]
                else none
              | _ => none
            else if b = '-' then
              match rest with
              | c1 :: c2 :: c3 :: c4 :: _ =>
                if c1.isDigit && c2.isDigit && c3.isDigit && c4.isDigit then
                  some [a, '-', c1, c2, c3, c4]
                else none
              | _ => none
            else none
          else none
        | _ => none
      else none
  else none

/-- `re.search` for `masa`. -/
def searchMasa : Str → Option Str
  | [] => none
  | c :: rest =>
    match attemptMasa (c :: rest) with
    | some g => some g
    | none => searchMasa rest

/-- Capture-class of `nama`: `[A-Z0-9\s\.\&\-\(\)]` under `re.IGNORECASE`,
which makes `A-Z` also match lowercase letters. -/
def inCn (c : Char) : Bool :=
  c.isAlpha || c.isDigit || isWs c || c == '.' || c == '&' || c == '-' ||
    c == '(' || c == ')'

/-- The part `\s*[:\-]?\s*([A-Z0-9\s\.\&\-\(\)]+)` of the `nama` pattern after
`Nama`, with Python's backtracking order: the two `\s*` are greedy (maximal
first, then ever fewer), the optional separator is tried before being skipped,
and the final capture is a greedy class-run that must be non-empty.  Because
whitespace belongs to the capture class, a failed capture after the whitespace
run backtracks into the run and captures its last whitespace character. -/
def namaCapture (u : Str) : Option Str :=
  let w1 := u.takeWhile isWs
  match u.dropWhile isWs with
  | [] => w1.getLast?.map (fun c => [c])
  | c :: rest =>
    if c == ':' || c == '-' then
      let w2 := rest.takeWhile isWs
      let r' := rest.dropWhile isWs
      if r'.takeWhile inCn ≠ [] then some (r'.takeWhile inCn)
      else
        match w2.getLast? with
        | some wc => some [wc]
        | none =>
          if c == '-' then some ((c :: rest).takeWhile inCn)
          else
            match w1.getLast? with
            | some wc => some [wc]
            | none => none
    else
      if (c :: rest).takeWhile inCn ≠ [] then some ((c :: rest).takeWhile inCn)
      else
        match w1.getLast? with
        | some wc => some [wc]
        | none => none

/-- One attempt of the `nama` pattern: `A`, `.`, `2`, `\s+`, `Nama`, then the
separator-and-capture part. -/
def attemptNama (t : Str) : Option Str :=
  match t with
  | c :: '.' :: '2' :: r1 =>
    if lowerEq 'a' c then
      if r1.takeWhile isWs = [] then none
      else
        let r2 := r1.dropWhile isWs
        if matchesCI ['n', 'a', 'm', 'a'] r2 then namaCapture (r2.drop 4)
        else none
    else none
  | _ => none

/-- `re.search` for `nama`. -/
def searchNama : Str → Option Str
  | [] => none
  | c :: rest =>
    match attemptNama (c :: rest) with
    | some g => some g
    | none => searchNama rest

/-- The class `[A-Z0-9]` of the `nomor` token (case-sensitive). -/
def isUpDig (c : Char) : Bool := c.isUpper || c.isDigit

/-- Python's regex word character, for the `\b` boundary. -/
def isWordChar (c : Char) : Bool := c.isAlpha || c.isDigit || c == '_'

/-- One attempt of the `nomor` pattern; `prev` is the character before the
current position, for the `\b` boundary.  The greedy `{8,}` can only take the
whole class-run, since the following `\s+` rejects class characters. -/
def attemptNomor (prev : Option Char) (t : Str) : Option Str :=
  let bok := match prev with
    | none => true
    | some pc => !isWordChar pc
  if bok then
    let run := t.takeWhile isUpDig
    if 8 ≤ run.length then
      let rest := t.drop run.length
      if rest.takeWhile isWs = [] then none
      else
        match rest.dropWhile isWs with
        | d1 :: d2 :: '-' :: e1 :: e2 :: e3 :: e4 :: _ =>
          if d1.isDigit && d2.isDigit && e1.isDigit && e2.isDigit &&
              e3.isDigit && e4.isDigit then
            some run
          else none
        | _ => none
    else none
  else none

/-- `re.search` for `nomor`, tracking the previous character. -/
def searchNomorGo (prev : Option Char) : Str → Option Str
  | [] => none
  | c :: rest =>
    match attemptNomor prev (c :: rest) with
    | some g => some g
    | none => searchNomorGo (some c) rest

/-- `re.search` for `nomor` from the start of the text. -/
def searchNomor (t : Str) : Option Str := searchNomorGo none t

/-- `extract_unifikasi_fields` (src/app.py lines 138-152): concatenates all
page texts, then runs the three searches; `masa` drops its hyphen, `nama` is
stripped.  There is no `try`/`except` here, so a collaborator failure
propagates. -/
def extract_unifikasi_fields (parse : List Nat → Except Unit (List Str))
    (raw : List Nat) : Except Unit (Option Str × Option Str × Option Str) :=
  match parse raw with
  | Except.error e => Except.error e
  | Except.ok pages =>
    let text := pages.foldl (fun a p => a ++ p) []
    Except.ok ((searchMasa text).map (fun g => g.filter (fun c => !(c == '-'))),
      (searchNama text).map pyStrip,
      searchNomor text)

/-- The prefix `NO-DATA-`. -/
def noDataPre : Str := ['N', 'O', '-', 'D', 'A', 'T', 'A', '-']

/-- Status shown when some Unifikasi field is missing. -/
def incStatus : Str := "Incomplete fields".data

/-- The literal ` / ` separator of the Unifikasi base name. -/
def sepSlash : Str := [' ', '/', ' ']

/-- Base name and status of one tab-2 document (lines 156-163); Python's
`if masa and nama and nomor:` is falsy for `None` and for empty strings. -/
def docBase2 (parse : List Nat → Except Unit (List Str)) (nm : Str)
    (raw : List Nat) : Except Unit (Str × Str) :=
  match extract_unifikasi_fields parse raw with
  | Except.error e => Except.error e
  | Except.ok (masa, nama, nomor) =>
    Except.ok (match masa, nama, nomor with
      | some ms, some na, some no =>
        if !ms.isEmpty && !na.isEmpty && !no.isEmpty then
          (ms ++ sepSlash ++ na ++ sepSlash ++ no, okStatus)
        else (noDataPre ++ stem nm, incStatus)
      | _, _, _ => (noDataPre ++ stem nm, incStatus))

/-- The tab-2 batch loop with its `name_counts_uni` state; an extraction
failure aborts the whole loop. -/
def tab2Go (parse : List Nat → Except Unit (List Str)) (counts : Str → Nat) :
    List (Str × List Nat) → Except Unit (List Record)
  | [] => Except.ok []
  | (nm, raw) :: rest =>
    match docBase2 parse nm raw with
    | Except.error e => Except.error e
    | Except.ok bs =>
      let safe := sanitize2 bs.1
      let n := counts safe + 1
      match tab2Go parse (fun t => if t = safe then n else counts t) rest with
      | Except.error e => Except.error e
      | Except.ok rs =>
        Except.ok
          ({ original_name := nm, new_name := mkName safe n, status := bs.2,
             bytes := raw } :: rs)

/-- The whole tab-2 batch run: counts start empty. -/
def processUnifikasi (parse : List Nat → Except Unit (List Str))
    (docs : List (Str × List Nat)) : Except Unit (List Record) :=
  tab2Go parse (fun _ => 0) docs

/-- Python truthiness of an optional string (`None` and `""` are falsy). -/
def truthy (o : Option Str) : Bool :=
  match o with
  | some s => !s.isEmpty
  | none => false

/-- The (pre-sanitization) base name of a tab-2 document whose extraction
succeeded; dummy empty string on the propagated-failure path, used only to
state batch-level facts under an all-parsed hypothesis. -/
def base2Of (parse : List Nat → Except Unit (List Str)) (nm : Str)
    (raw : List Nat) : Str :=
  match docBase2 parse nm raw with
  | Except.error _ => []
  | Except.ok bs => bs.1

/-! ### Basic lemmas about the decimal rendering -/

theorem charVal_digitChar10 {d : Nat} (h : d < 10) :
    charVal (digitChar10 d) = d := by
  unfold digitChar10
  split_ifs with h0 h1 h2 h3 h4 h5 h6 h7 h8 <;>
    first
      | (subst_vars; decide)
      | (have : d = 9 := by omega
         subst this; decide)

theorem digitChar10_ne_us (d : Nat) : digitChar10 d ≠ '_' := by
  unfold digitChar10
  split_ifs <;> decide

theorem val10_append_digit (l : Str) (c : Char) :
    val10 (l ++ [c]) = 10 * val10 l + charVal c := by
  simp [val10, List.foldl_append]

theorem val10_digits10Go : ∀ fuel n, n < fuel → val10 (digits10Go fuel n) = n := by
  intro fuel
  induction fuel with
  | zero => intro n h; omega
  | succ f ih =>
    intro n h
    rw [digits10Go]
    split
    · next h10 =>
      simp [val10, List.foldl, charVal_digitChar10 h10]
    · next h10 =>
      rw [val10_append_digit, ih (n / 10) (by omega),
        charVal_digitChar10 (Nat.mod_lt _ (by omega))]
      omega

theorem natStr_inj {a b : Nat} (h : natStr a = natStr b) : a = b := by
  have ha := val10_digits10Go (a + 1) a (by omega)
  have hb := val10_digits10Go (b + 1) b (by omega)
  rw [natStr, natStr] at h
  rw [h, hb] at ha
  omega

theorem natStr_no_us_go : ∀ fuel n, '_' ∉ digits10Go fuel n := by
  intro fuel
  induction fuel with
  | zero => intro n h; simp [digits10Go] at h
  | succ f ih =>
    intro n hmem
    rw [digits10Go] at hmem
    split at hmem
    · rcases List.mem_singleton.1 hmem with h3
      exact digitChar10_ne_us n h3.symm
    · rcases List.mem_append.1 hmem with h1 | h2
      · exact ih (n / 10) h1
      · rcases List.mem_singleton.1 h2 with h3
        exact digitChar10_ne_us (n % 10) h3.symm

theorem natStr_no_us (n : Nat) : '_' ∉ natStr n :=
  natStr_no_us_go (n + 1) n

/-! ### Underscore-splitting lemmas for suffixed names -/

theorem takeWhile_us (s r : Str) (hs : '_' ∉ s) :
    (s ++ '_' :: r).takeWhile (fun c => !(c == '_')) = s := by
  induction s with
  | nil => simp [List.takeWhile]
  | cons c s' ih =>
    have hc : c ≠ '_' := fun h => hs (h ▸ List.mem_cons_self c s')
    have hs' : '_' ∉ s' := fun h => hs (List.mem_cons_of_mem c h)
    simp only [List.cons_append, List.takeWhile]
    have : (c == '_') = false := by simpa using hc
    rw [this]
    simp [ih hs']

theorem dropWhile_us (s r : Str) (hs : '_' ∉ s) :
    (s ++ '_' :: r).dropWhile (fun c => !(c == '_')) = '_' :: r := by
  induction s with
  | nil => simp [List.dropWhile]
  | cons c s' ih =>
    have hc : c ≠ '_' := fun h => hs (h ▸ List.mem_cons_self c s')
    have hs' : '_' ∉ s' := fun h => hs (List.mem_cons_of_mem c h)
    simp only [List.cons_append, List.dropWhile]
    have : (c == '_') = false := by simpa using hc
    rw [this]
    simp [ih hs']

theorem us_split {s t u v : Str} (hu : '_' ∉ u) (hv : '_' ∉ v)
    (h : s ++ '_' :: u = t ++ '_' :: v) : s = t ∧ u = v := by
  have hrev : u.reverse ++ '_' :: s.reverse = v.reverse ++ '_' :: t.reverse := by
    have h2 := congrArg List.reverse h
    simpa [List.reverse_append, List.append_assoc] using h2
  have hu' : '_' ∉ u.reverse := by simpa using hu
  have hv' : '_' ∉ v.reverse := by simpa using hv
  have ht : u.reverse = v.reverse := by
    have := congrArg (List.takeWhile (fun c => !(c == '_'))) hrev
    rwa [takeWhile_us _ _ hu', takeWhile_us _ _ hv'] at this
  have hd : '_' :: s.reverse = '_' :: t.reverse := by
    have := congrArg (List.dropWhile (fun c => !(c == '_'))) hrev
    rwa [dropWhile_us _ _ hu', dropWhile_us _ _ hv'] at this
  constructor
  · have := List.cons.injEq .. ▸ hd
    have hst : s.reverse = t.reverse := by injection hd
    simpa using congrArg List.reverse hst
  · simpa using congrArg List.reverse ht

theorem pdfExt_no_us : '_' ∉ pdfExt := by decide

/-- Complete case analysis of equality of two resolver-produced names. -/
theorem mkName_eq_cases {s t : Str} {a b : Nat} (ha : 1 ≤ a) (hb : 1 ≤ b)
    (h : mkName s a = mkName t b) :
    (s = t ∧ a = b) ∨
      (∃ k, 1 ≤ k ∧ (t = s ++ '_' :: natStr k ∨ s = t ++ '_' :: natStr k)) := by
  unfold mkName at h
  by_cases h1 : a = 1 <;> by_cases h2 : b = 1
  · subst h1; subst h2
    simp only [if_pos rfl] at h
    exact Or.inl ⟨List.append_cancel_right h, rfl⟩
  · subst h1
    rw [if_pos rfl, if_neg h2] at h
    have h' : s ++ pdfExt = (t ++ '_' :: natStr (b - 1)) ++ pdfExt := by
      rw [h]; simp [List.append_assoc]
    exact Or.inr ⟨b - 1, by omega, Or.inr (List.append_cancel_right h')⟩
  · subst h2
    rw [if_neg h1, if_pos rfl] at h
    have h' : (s ++ '_' :: natStr (a - 1)) ++ pdfExt = t ++ pdfExt := by
      rw [← h]; simp [List.append_assoc]
    exact Or.inr ⟨a - 1, by omega, Or.inl (List.append_cancel_right h').symm⟩
  · rw [if_neg h1, if_neg h2] at h
    have h' : (s ++ '_' :: natStr (a - 1)) ++ pdfExt =
        (t ++ '_' :: natStr (b - 1)) ++ pdfExt := by
      simpa [List.append_assoc] using h
    have h'' := List.append_cancel_right h'
    have := us_split (natStr_no_us (a - 1)) (natStr_no_us (b - 1)) h''
    rcases this with ⟨hst, hd⟩
    have hab : a - 1 = b - 1 := natStr_inj hd
    exact Or.inl ⟨hst, by omega⟩

/-! ### Resolver bookkeeping -/

theorem resolve_length : ∀ (bases : List Str) (counts), (resolve counts bases).length = bases.length := by
  intro bases
  induction bases with
  | nil => intro counts; rfl
  | cons s rest ih => intro counts; simp [resolve, ih]

theorem occCount_append (s : Str) (l1 l2 : List Str) :
    occCount s (l1 ++ l2) = occCount s l1 + occCount s l2 := by
  induction l1 with
  | nil => simp [occCount]
  | cons t r ih => simp [occCount, ih]; omega

theorem occCount_pos_of_mem {s : Str} {l : List Str} (h : s ∈ l) :
    1 ≤ occCount s l := by
  induction l with
  | nil => simp at h
  | cons t r ih =>
    rcases List.mem_cons.1 h with h1 | h2
    · simp [occCount, h1.symm]
    · have := ih h2
      simp only [occCount]
      omega

theorem resolve_get? : ∀ (bases : List Str) (counts) (i : Nat) (s : Str),
    bases.get? i = some s →
    (resolve counts bases).get? i =
      some (mkName s (counts s + occCount s (bases.take (i + 1)))) := by
  intro bases
  induction bases with
  | nil => intro counts i s hs; simp at hs
  | cons hd rest ih =>
    intro counts i s hs
    cases i with
    | zero =>
      simp only [List.get?_cons_zero, Option.some.injEq] at hs
      subst hs
      simp [resolve, occCount]
    | succ i =>
      simp only [List.get?_cons_succ] at hs
      simp only [resolve, List.get?_cons_succ]
      rw [ih _ i s hs]
      have htake : (hd :: rest).take (i + 1 + 1) = hd :: rest.take (i + 1) := rfl
      rw [htake]
      simp only [occCount]
      by_cases hsh : s = hd
      · subst hsh
        have heq : counts s + 1 + occCount s (rest.take (i + 1)) =
            counts s + (1 + occCount s (rest.take (i + 1))) := by omega
        simp [heq]
      · have : hd ≠ s := fun h => hsh h.symm
        simp [if_neg hsh, if_neg this]

theorem natStr_length_pos (n : Nat) : 1 ≤ (natStr n).length := by
  rw [natStr, digits10Go]
  split
  · simp
  · simp

theorem occ_take_mono {bases : List Str} {i j : Nat} {S : Str} (hij : i < j)
    (hi : bases.get? i = some S) (hj : bases.get? j = some S) :
    occCount S (bases.take (i + 1)) < occCount S (bases.take (j + 1)) := by
  have hsum : occCount S (bases.take ((i + 1) + (j - i))) =
      occCount S (bases.take (i + 1)) +
        occCount S ((bases.drop (i + 1)).take (j - i)) := by
    rw [List.take_add, occCount_append]
  have hsplit : j + 1 = (i + 1) + (j - i) := by omega
  have hmem : S ∈ (bases.drop (i + 1)).take (j - i) := by
    have hg : ((bases.drop (i + 1)).take (j - i)).get? (j - (i + 1)) = some S := by
      rw [List.get?_take (by omega), List.get?_drop]
      have harith : i + 1 + (j - (i + 1)) = j := by omega
      rw [harith]
      exact hj
    exact List.get?_mem hg
  have hpos := occCount_pos_of_mem hmem
  rw [hsplit]
  omega

theorem mem_take_self {bases : List Str} {i : Nat} {S : Str}
    (hi : bases.get? i = some S) : S ∈ bases.take (i + 1) := by
  have hg : (bases.take (i + 1)).get? i = some S := by
    rw [List.get?_take (by omega)]
    exact hi
  exact List.get?_mem hg

/-- C1 (amended): the resolver's final names are pairwise distinct provided no
sanitized base name in the batch equals another base name extended with an
underscore-and-positive-decimal suffix.  The unamended claim, quantifying over
all base-name sequences, is refuted by `c1_counterexample`. -/
theorem c1_resolver_names_unique (bases : List Str)
    (hfree : ∀ s ∈ bases, ∀ t ∈ bases, ∀ a : Nat, 1 ≤ a →
      t ≠ s ++ '_' :: natStr a) :
    (finalNames bases).Pairwise (fun x y => x ≠ y) := by
  rw [List.pairwise_iff_get]
  intro i j hij
  have hlen : (finalNames bases).length = bases.length := resolve_length bases _
  have hi : (i : Nat) < bases.length := by omega
  have hj : (j : Nat) < bases.length := by omega
  obtain ⟨si, hsi⟩ : ∃ s, bases.get? i = some s := ⟨_, List.get?_eq_get hi⟩
  obtain ⟨sj, hsj⟩ : ∃ s, bases.get? j = some s := ⟨_, List.get?_eq_get hj⟩
  have hgi : (finalNames bases).get? i =
      some (mkName si (occCount si (bases.take ((i : Nat) + 1)))) := by
    have := resolve_get? bases (fun _ => 0) i si hsi
    simpa [finalNames] using this
  have hgj : (finalNames bases).get? j =
      some (mkName sj (occCount sj (bases.take ((j : Nat) + 1)))) := by
    have := resolve_get? bases (fun _ => 0) j sj hsj
    simpa [finalNames] using this
  have hvi : (finalNames bases).get i =
      mkName si (occCount si (bases.take ((i : Nat) + 1))) := by
    have h1 : (finalNames bases).get? i = some ((finalNames bases).get i) :=
      List.get?_eq_get i.isLt
    rw [h1] at hgi
    exact Option.some.inj hgi
  have hvj : (finalNames bases).get j =
      mkName sj (occCount sj (bases.take ((j : Nat) + 1))) := by
    have h1 : (finalNames bases).get? j = some ((finalNames bases).get j) :=
      List.get?_eq_get j.isLt
    rw [h1] at hgj
    exact Option.some.inj hgj
  intro heq
  rw [hvi, hvj] at heq
  have hNi : 1 ≤ occCount si (bases.take ((i : Nat) + 1)) :=
    occCount_pos_of_mem (mem_take_self hsi)
  have hNj : 1 ≤ occCount sj (bases.take ((j : Nat) + 1)) :=
    occCount_pos_of_mem (mem_take_self hsj)
  rcases mkName_eq_cases hNi hNj heq with ⟨hst, hab⟩ | ⟨k, hk, hor⟩
  · subst hst
    have hmono := occ_take_mono (show (i : Nat) < (j : Nat) from hij) hsi hsj
    omega
  · have hmi : si ∈ bases := List.get?_mem hsi
    have hmj : sj ∈ bases := List.get?_mem hsj
    rcases hor with h1 | h1
    · exact hfree si hmi sj hmj k hk h1
    · exact hfree sj hmj si hmi k hk h1

/-- C1 witness: a concrete batch satisfying the amended hypothesis has pairwise
distinct final names. -/
theorem c1_resolver_names_unique_witness :
    (finalNames [['a'], ['a'], ['b']]).Pairwise (fun x y => x ≠ y) := by
  apply c1_resolver_names_unique
  intro s hs t ht a ha h
  have hlen := congrArg List.length h
  have hns := natStr_length_pos a
  fin_cases hs <;> fin_cases ht <;> simp at hlen <;> omega

/-- C1 counterexample: with sanitized bases `X`, `X`, `X_1`, the second
document's suffixed name collides with the third document's first-occurrence
name, so final names are not pairwise distinct as the claim states. -/
theorem c1_counterexample :
    finalNames [['X'], ['X'], ['X', '_', '1']] =
      [['X', '.', 'p', 'd', 'f'], ['X', '_', '1', '.', 'p', 'd', 'f'],
        ['X', '_', '1', '.', 'p', 'd', 'f']] ∧
    ¬ (finalNames [['X'], ['X'], ['X', '_', '1']]).Pairwise
        (fun x y => x ≠ y) := by
  constructor
  · decide
  · decide

/-! ### Sanitizer idempotence -/

theorem mem_of_mem_pyStrip {c : Char} {l : Str} (h : c ∈ pyStrip l) : c ∈ l := by
  unfold pyStrip at h
  rw [List.mem_reverse] at h
  have h2 := (List.dropWhile_sublist isWs).mem h
  rw [List.mem_reverse] at h2
  exact (List.dropWhile_sublist isWs).mem h2

theorem map_id_of_fix {f : Char → Char} :
    ∀ l : Str, (∀ c ∈ l, f c = c) → l.map f = l := by
  intro l
  induction l with
  | nil => intro _; rfl
  | cons c t ih =>
    intro h
    simp only [List.map_cons]
    rw [h c (List.mem_cons_self c t), ih (fun x hx => h x (List.mem_cons_of_mem c hx))]

theorem dropWhile_idem (p : Char → Bool) :
    ∀ l : Str, (l.dropWhile p).dropWhile p = l.dropWhile p := by
  intro l
  induction l with
  | nil => rfl
  | cons c t ih =>
    by_cases h : p c
    · simp [List.dropWhile_cons, h, ih]
    · simp [List.dropWhile_cons, h]

theorem dropWhile_eq_self_of_prefix {p : Char → Bool} {z y : Str}
    (hpre : z <+: y) (hy : y.dropWhile p = y) : z.dropWhile p = z := by
  cases z with
  | nil => rfl
  | cons c z' =>
    obtain ⟨w, hw⟩ := hpre
    have hy' : y = c :: (z' ++ w) := by rw [← hw]; rfl
    cases hc : p c with
    | false =>
      rw [List.dropWhile_cons, hc]
      simp
    | true =>
      exfalso
      rw [hy', List.dropWhile_cons, hc] at hy
      simp only [if_true] at hy
      have hlen := congrArg List.length hy
      have hle : (List.dropWhile p (z' ++ w)).length ≤ (z' ++ w).length :=
        (List.dropWhile_sublist p).length_le
      rw [List.length_cons] at hlen
      omega

theorem pyStrip_left_fix (l : Str) : (pyStrip l).dropWhile isWs = pyStrip l := by
  unfold pyStrip
  have hsuf : (l.dropWhile isWs).reverse.dropWhile isWs <:+ (l.dropWhile isWs).reverse :=
    List.dropWhile_suffix isWs
  obtain ⟨t, ht⟩ := hsuf
  have hpre : ((l.dropWhile isWs).reverse.dropWhile isWs).reverse <+: l.dropWhile isWs := by
    refine ⟨t.reverse, ?_⟩
    have := congrArg List.reverse ht
    simpa [List.reverse_append] using this
  exact dropWhile_eq_self_of_prefix hpre (dropWhile_idem isWs l)

theorem pyStrip_right_fix (l : Str) :
    (pyStrip l).reverse.dropWhile isWs = (pyStrip l).reverse := by
  unfold pyStrip
  rw [List.reverse_reverse]
  exact dropWhile_idem isWs _

theorem pyStrip_idem (l : Str) : pyStrip (pyStrip l) = pyStrip l := by
  conv_lhs => rw [pyStrip]
  rw [pyStrip_left_fix, pyStrip_right_fix, List.reverse_reverse]

theorem mem_sanitize1_allowed {c : Char} {s : Str} (h : c ∈ sanitize1 s) :
    allowed1 c = true := by
  unfold sanitize1 at h
  have h2 := mem_of_mem_pyStrip h
  rcases List.mem_map.1 h2 with ⟨x, _, hx⟩
  by_cases hax : allowed1 x = true
  · rw [if_pos hax] at hx
    rw [← hx]; exact hax
  · rw [if_neg hax] at hx
    rw [← hx]; decide

theorem mem_sanitize2_allowed {c : Char} {s : Str} (h : c ∈ sanitize2 s) :
    allowed2 c = true := by
  unfold sanitize2 at h
  have h2 := mem_of_mem_pyStrip h
  rcases List.mem_map.1 h2 with ⟨x, _, hx⟩
  by_cases hax : allowed2 x = true
  · rw [if_pos hax] at hx
    rw [← hx]; exact hax
  · rw [if_neg hax] at hx
    rw [← hx]; decide

/-- C8: both profiles' sanitizers (character replacement followed by strip)
are idempotent. -/
theorem c8_sanitizer_idempotent (s : Str) :
    sanitize1 (sanitize1 s) = sanitize1 s ∧
      sanitize2 (sanitize2 s) = sanitize2 s := by
  constructor
  · have hmap : (sanitize1 s).map (fun c => if allowed1 c then c else '_') =
        sanitize1 s :=
      map_id_of_fix _ (fun c hc => if_pos (mem_sanitize1_allowed hc))
    show pyStrip ((sanitize1 s).map (fun c => if allowed1 c then c else '_')) =
      sanitize1 s
    rw [hmap]
    exact pyStrip_idem _
  · have hmap : (sanitize2 s).map (fun c => if allowed2 c then c else '_') =
        sanitize2 s :=
      map_id_of_fix _ (fun c hc => if_pos (mem_sanitize2_allowed hc))
    show pyStrip ((sanitize2 s).map (fun c => if allowed2 c then c else '_')) =
      sanitize2 s
    rw [hmap]
    exact pyStrip_idem _

/-! ### Referensi extraction lemmas -/

theorem refFromPages_cons_some {p : Str} {ps : List Str} {m : Str}
    (h : searchRef p = some m) : refFromPages (p :: ps) = some (pyStrip m) := by
  simp [refFromPages, h]

theorem refFromPages_cons_none {p : Str} {ps : List Str}
    (h : searchRef p = none) : refFromPages (p :: ps) = refFromPages ps := by
  simp [refFromPages, h]

theorem refFromPages_none : ∀ (pages : List Str),
    (∀ q ∈ pages, searchRef q = none) → refFromPages pages = none := by
  intro pages
  induction pages with
  | nil => intro _; rfl
  | cons p ps ih =>
    intro h
    rw [refFromPages_cons_none (h p (List.mem_cons_self p ps))]
    exact ih (fun q hq => h q (List.mem_cons_of_mem p hq))

theorem searchRef_cons_some {c : Char} {l : Str} {g : Str}
    (h : attemptRef (c :: l) = some g) : searchRef (c :: l) = some g := by
  rw [show searchRef (c :: l) = (match attemptRef (c :: l) with
    | some g => some g
    | none => searchRef l) from rfl, h]

theorem searchRef_cons_none {c : Char} {l : Str}
    (h : attemptRef (c :: l) = none) : searchRef (c :: l) = searchRef l := by
  rw [show searchRef (c :: l) = (match attemptRef (c :: l) with
    | some g => some g
    | none => searchRef l) from rfl, h]

theorem searchRef_append_of_no_r : ∀ (pre rest : Str),
    (∀ c ∈ pre, lowerEq 'r' c = false) →
    searchRef (pre ++ rest) = searchRef rest := by
  intro pre
  induction pre with
  | nil => intro rest _; rfl
  | cons c pre' ih =>
    intro rest h
    have hc : lowerEq 'r' c = false := h c (List.mem_cons_self c pre')
    have hatt : attemptRef (c :: (pre' ++ rest)) = none := by
      unfold attemptRef
      rw [show matchesCI ['r', 'e', 'f', 'e', 'r', 'e', 'n', 's', 'i']
          (c :: (pre' ++ rest)) = false by simp [matchesCI, hc]]
      simp
    rw [List.cons_append, searchRef_cons_none hatt]
    exact ih rest (fun x hx => h x (List.mem_cons_of_mem c hx))

theorem capGo_full : ∀ (X acc : Str), X ≠ [] →
    (∀ c ∈ X, inCref c = true ∧ isWs c = false ∧ (c == ')') = false) →
    capGo acc X = some (acc ++ X) := by
  intro X
  induction X with
  | nil => intro acc h _; exact absurd rfl h
  | cons c xs ih =>
    intro acc _ hX
    obtain ⟨hc1, _, _⟩ := hX c (List.mem_cons_self c xs)
    rw [capGo, if_pos hc1]
    cases xs with
    | nil => simp [lookStop]
    | cons d ds =>
      obtain ⟨_, hd2, hd3⟩ := hX d (List.mem_cons_of_mem c (List.mem_cons_self d ds))
      have hlook : lookStop (d :: ds) = false := by
        simp [lookStop, List.takeWhile, hd2]
        intro hcon
        rw [hcon] at hd3
        simp at hd3
      rw [if_neg (by rw [hlook]; exact Bool.false_ne_true)]
      rw [ih (acc ++ [c]) (by simp)
        (fun x hx => hX x (List.mem_cons_of_mem c hx))]
      simp

theorem takeWhile_ws_marker_tail {X : Str}
    (hX : ∀ c ∈ X, isWs c = false) :
    (' ' :: X).takeWhile isWs = [' '] := by
  cases X with
  | nil => rfl
  | cons x xs =>
    have hx := hX x (List.mem_cons_self x xs)
    have h2 : (x :: xs).takeWhile isWs = [] := by
      simp [List.takeWhile_cons, hx]
    show ' ' :: (x :: xs).takeWhile isWs = [' ']
    rw [h2]

theorem attemptRef_marker (X : Str) (hne : X ≠ [])
    (hX : ∀ c ∈ X, inCref c = true ∧ isWs c = false ∧ (c == ')') = false) :
    attemptRef (refMarker ++ X) = some X := by
  show tryFrom (' ' :: X) ((' ' :: X).takeWhile isWs).length = some X
  rw [takeWhile_ws_marker_tail (fun c hc => (hX c hc).2.1)]
  show (match capGo [] X with
    | some g => some g
    | none => tryFrom (' ' :: X) 0) = some X
  rw [capGo_full X [] hne hX]
  rfl

theorem dropWhile_eq_self_of_none {p : Char → Bool} : ∀ {l : Str},
    (∀ c ∈ l, p c = false) → l.dropWhile p = l := by
  intro l
  cases l with
  | nil => intro _; rfl
  | cons c t =>
    intro h
    rw [List.dropWhile_cons, h c (List.mem_cons_self c t)]
    simp

theorem pyStrip_of_no_ws {X : Str} (hX : ∀ c ∈ X, isWs c = false) :
    pyStrip X = X := by
  unfold pyStrip
  rw [dropWhile_eq_self_of_none hX,
    dropWhile_eq_self_of_none (fun c hc => hX c (List.mem_reverse.1 hc)),
    List.reverse_reverse]

theorem searchRef_marker {pre X : Str}
    (hpre : ∀ c ∈ pre, lowerEq 'r' c = false) (hne : X ≠ [])
    (hX : ∀ c ∈ X, inCref c = true ∧ isWs c = false ∧ (c == ')') = false) :
    searchRef (pre ++ refMarker ++ X) = some X := by
  rw [List.append_assoc, searchRef_append_of_no_r pre _ hpre]
  have hatt := attemptRef_marker X hne hX
  rw [show refMarker ++ X = 'R' :: (['e', 'f', 'e', 'r', 'e', 'n', 's', 'i', ':', ' '] ++ X)
    from rfl] at hatt ⊢
  exact searchRef_cons_some hatt

/-- C4 (amended): the Referensi extractor scans pages in order, returns the
first page's leftmost match trimmed and stops there, returns `none` when no
page matches; and for a page of the form `P ++ "Referensi: " ++ X` with `P`
free of `r`/`R` (so no earlier match attempt can start), `X` non-empty,
consisting of capture-class characters and free of whitespace/parenthesis
stop-characters, extraction returns exactly `X`.  The unamended claim (any
text merely containing `Referensi: X` yields `X`) is refuted by
`c4_counterexample`, since `re.search` returns the leftmost match. -/
theorem c4_referensi_extraction (p : Str) (ps pages : List Str) (m pre X : Str) :
    (searchRef p = some m → refFromPages (p :: ps) = some (pyStrip m)) ∧
    (searchRef p = none → refFromPages (p :: ps) = refFromPages ps) ∧
    ((∀ q ∈ pages, searchRef q = none) → refFromPages pages = none) ∧
    ((∀ c ∈ pre, lowerEq 'r' c = false) → X ≠ [] →
      (∀ c ∈ X, inCref c = true ∧ isWs c = false ∧ (c == ')') = false) →
      refFromPages [pre ++ refMarker ++ X] = some X) := by
  refine ⟨refFromPages_cons_some, refFromPages_cons_none, refFromPages_none pages, ?_⟩
  intro hpre hne hX
  rw [refFromPages_cons_some (searchRef_marker hpre hne hX)]
  rw [pyStrip_of_no_ws (fun c hc => (hX c hc).2.1)]

/-- C4 witness: a concrete page with an `r`-free prefix and a clean value. -/
theorem c4_referensi_extraction_witness :
    refFromPages [['x', 'x', '-'] ++ refMarker ++ ['A', 'B', '1', '2']] =
      some ['A', 'B', '1', '2'] :=
  (c4_referensi_extraction [] [] [] [] ['x', 'x', '-'] ['A', 'B', '1', '2']).2.2.2
    (by decide) (by decide) (by decide)

/-- C4 counterexample: the page text contains `Referensi: B` with `B` free of
stop-characters, yet extraction returns the leftmost match `A`, so the
containment form of the claim is false. -/
theorem c4_counterexample :
    "Referensi: A\nReferensi: B".data =
      "Referensi: A\n".data ++ refMarker ++ "B".data ++ [] ∧
    (∀ c ∈ ("B".data : Str), inCref c = true ∧ isWs c = false ∧
      (c == ')') = false) ∧
    refFromPages ["Referensi: A\nReferensi: B".data] = some "A".data ∧
    ("A".data : Str) ≠ "B".data := by
  refine ⟨by decide, by decide, by decide, by decide⟩

/-! ### C5: the no-referensi fallback -/

theorem attemptRef_some_tok {t g : Str} (h : attemptRef t = some g) :
    refTokenAt t = true := by
  unfold attemptRef at h
  by_cases hm : matchesCI ['r', 'e', 'f', 'e', 'r', 'e', 'n', 's', 'i'] t = true
  · rw [if_pos hm] at h
    unfold refTokenAt
    rw [hm, Bool.true_and]
    split at h
    · next heq => rw [heq]; rfl
    · exact absurd h (by simp)
  · rw [if_neg hm] at h
    exact absurd h (by simp)

theorem searchRef_none_of_no_tok : ∀ t : Str,
    hasRefTok t = false → searchRef t = none := by
  intro t
  induction t with
  | nil => intro _; rfl
  | cons c rest ih =>
    intro h
    have h' : refTokenAt (c :: rest) = false ∧ hasRefTok rest = false := by
      have : (refTokenAt (c :: rest) || hasRefTok rest) = false := h
      simpa using this
    cases hatt : attemptRef (c :: rest) with
    | some g =>
      have := attemptRef_some_tok hatt
      rw [this] at h'
      exact absurd h'.1 (by simp)
    | none =>
      rw [searchRef_cons_none hatt]
      exact ih h'.2

theorem extract_ref_none {parse : List Nat → Except Unit (List Str)}
    {raw : List Nat}
    (htok : ∀ pages, parse raw = Except.ok pages →
      ∀ q ∈ pages, hasRefTok q = false) :
    extract_referensi_from_bytes parse raw = none := by
  unfold extract_referensi_from_bytes
  cases hp : parse raw with
  | error e => rfl
  | ok pages =>
    exact refFromPages_none pages
      (fun q hq => searchRef_none_of_no_tok q (htok pages hp q hq))

theorem docBase1_fallback {parse : List Nat → Except Unit (List Str)}
    {nm : Str} {raw : List Nat}
    (h : extract_referensi_from_bytes parse raw = none) :
    docBase1 parse nm raw = (noRefPre ++ stem nm, noRefStatus) := by
  unfold docBase1
  rw [h]

theorem sanitize1_noRef (nm : Str)
    (hall : ∀ c ∈ stem nm, allowed1 c = true)
    (htr : ∀ c, (stem nm).getLast? = some c → isWs c = false) :
    sanitize1 (noRefPre ++ stem nm) = noRefPre ++ stem nm := by
  have hmap : (noRefPre ++ stem nm).map
      (fun c => if allowed1 c then c else '_') = noRefPre ++ stem nm := by
    apply map_id_of_fix
    intro c hc
    rcases List.mem_append.1 hc with h1 | h2
    · have hok : allowed1 c = true := by fin_cases h1 <;> decide
      rw [if_pos hok]
    · rw [if_pos (hall c h2)]
  unfold sanitize1
  rw [hmap]
  unfold pyStrip
  have h1 : (noRefPre ++ stem nm).dropWhile isWs = noRefPre ++ stem nm := by
    rw [show noRefPre ++ stem nm =
      'N' :: (['O', '-', 'R', 'E', 'F', 'E', 'R', 'E', 'N', 'S', 'I', '-'] ++
        stem nm) from rfl]
    rw [List.dropWhile_cons, show isWs 'N' = false from rfl]
    simp
  have h2 : ((stem nm).reverse ++ noRefPre.reverse).dropWhile isWs =
      (stem nm).reverse ++ noRefPre.reverse := by
    cases hrev : (stem nm).reverse with
    | nil =>
      simp only [List.nil_append]
      decide
    | cons c cs =>
      have hgl : (stem nm).getLast? = some c := by
        rw [← List.head?_reverse, hrev]
        rfl
      have hc := htr c hgl
      rw [List.cons_append, List.dropWhile_cons, hc]
      simp
  rw [h1, List.reverse_append, h2, ← List.reverse_append, List.reverse_reverse]

theorem tab1Go_names (parse : List Nat → Except Unit (List Str)) :
    ∀ (docs : List (Str × List Nat)) (counts : Str → Nat),
    (tab1Go parse counts docs).map (fun r => r.new_name) =
      resolve counts (docs.map (fun d => sanitize1 (docBase1 parse d.1 d.2).1)) := by
  intro docs
  induction docs with
  | nil => intro counts; rfl
  | cons d rest ih =>
    intro counts
    obtain ⟨nm, raw⟩ := d
    simp only [tab1Go, resolve, List.map_cons]
    exact congrArg _ (ih _)

theorem tab1Go_get?_base (parse : List Nat → Except Unit (List Str)) :
    ∀ (docs : List (Str × List Nat)) (counts : Str → Nat) (i : Nat)
      (nm : Str) (raw : List Nat),
    docs.get? i = some (nm, raw) →
    ∃ r, (tab1Go parse counts docs).get? i = some r ∧
      r.original_name = nm ∧ r.bytes = raw ∧
      r.status = (docBase1 parse nm raw).2 := by
  intro docs
  induction docs with
  | nil => intro counts i nm raw h; simp at h
  | cons d rest ih =>
    intro counts i nm raw h
    obtain ⟨nm0, raw0⟩ := d
    cases i with
    | zero =>
      have h12 : nm0 = nm ∧ raw0 = raw := by simpa using h
      obtain ⟨ha, hb⟩ := h12
      subst ha
      subst hb
      exact ⟨_, rfl, rfl, rfl, rfl⟩
    | succ i =>
      simp only [List.get?_cons_succ] at h
      simp only [tab1Go, List.get?_cons_succ]
      exact ih _ i nm raw h

/-- C5 (amended): a document on which no page carries `Referensi`, optional
whitespace, then `:` (case-insensitively) gets base name
`NO-REFERENSI-{stem}`, status `No referensi found`, and — when its sanitized
base occurs for the first time in the batch and the stem is made of
sanitizer-allowed characters with no trailing whitespace — final name
`NO-REFERENSI-{stem}.pdf`.  The unamended claim (hypothesis: pages lack the
literal token `Referensi:`) is refuted by `c5_counterexample`, where
`Referensi : C9` matches the pattern although the literal token is absent;
the sanitizer condition on the stem is likewise necessary since disallowed
stem characters are replaced by `_`. -/
theorem c5_no_referensi_fallback (parse : List Nat → Except Unit (List Str))
    (docs : List (Str × List Nat)) (i : Nat) (nm : Str) (raw : List Nat)
    (hdoc : docs.get? i = some (nm, raw))
    (htok : ∀ pages, parse raw = Except.ok pages →
      ∀ q ∈ pages, hasRefTok q = false)
    (hall : ∀ c ∈ stem nm, allowed1 c = true)
    (htr : ∀ c, (stem nm).getLast? = some c → isWs c = false)
    (hocc : occCount (noRefPre ++ stem nm)
      ((docs.map (fun d => sanitize1 (docBase1 parse d.1 d.2).1)).take (i + 1)) = 1) :
    ∃ r, (processReferensi parse docs).get? i = some r ∧
      r.status = noRefStatus ∧
      r.new_name = (noRefPre ++ stem nm) ++ pdfExt ∧
      r.original_name = nm ∧ r.bytes = raw := by
  have hbase : docBase1 parse nm raw = (noRefPre ++ stem nm, noRefStatus) :=
    docBase1_fallback (extract_ref_none htok)
  have hsan : sanitize1 (docBase1 parse nm raw).1 = noRefPre ++ stem nm := by
    rw [hbase]
    exact sanitize1_noRef nm hall htr
  obtain ⟨r, hr, ho, hb, hs⟩ := tab1Go_get?_base parse docs (fun _ => 0) i nm raw hdoc
  refine ⟨r, hr, ?_, ?_, ho, hb⟩
  · rw [hs, hbase]
  · have hget1 : ((tab1Go parse (fun _ => 0) docs).map
        (fun r => r.new_name)).get? i = some r.new_name := by
      rw [List.get?_map, hr]
      rfl
    have hget2 : (docs.map (fun d => sanitize1 (docBase1 parse d.1 d.2).1)).get? i =
        some (noRefPre ++ stem nm) := by
      rw [List.get?_map, hdoc]
      simpa using hsan
    have hres := resolve_get?
      (docs.map (fun d => sanitize1 (docBase1 parse d.1 d.2).1))
      (fun _ => 0) i (noRefPre ++ stem nm) hget2
    rw [tab1Go_names parse docs (fun _ => 0)] at hget1
    rw [hres, hocc] at hget1
    have hval : r.new_name = mkName (noRefPre ++ stem nm) (0 + 1) :=
      (Option.some.inj hget1).symm
    rw [hval]
    rfl

/-- C5 witness: a one-document batch whose single page lacks the pattern. -/
theorem c5_no_referensi_fallback_witness :
    ∃ r, (processReferensi (fun _ => Except.ok [['h', 'i']])
        [("doc.pdf".data, [7])]).get? 0 = some r ∧
      r.status = noRefStatus ∧
      r.new_name = (noRefPre ++ stem "doc.pdf".data) ++ pdfExt ∧
      r.original_name = "doc.pdf".data ∧ r.bytes = [7] := by
  apply c5_no_referensi_fallback
  · decide
  · intro pages hp q hq
    have hpp : pages = [['h', 'i']] := by
      injection hp with h1
      exact h1.symm
    subst hpp
    have hq1 : q = ['h', 'i'] := by simpa using hq
    subst hq1
    decide
  · decide
  · intro c hc
    have hcc : c = 'c' := by
      have h0 : (stem "doc.pdf".data).getLast? = some 'c' := by decide
      rw [h0] at hc
      injection hc with h1
      exact h1.symm
    subst hcc
    decide
  · decide

/-- C5 counterexample: the page `Referensi : C9` contains no literal token
`Referensi:` (case-insensitively), yet the pattern matches (whitespace is
allowed before the colon), so the document is named `C9.pdf` with status `OK`
instead of the claimed fallback. -/
theorem c5_counterexample :
    containsCI "Referensi:".data "Referensi : C9".data = false ∧
    processReferensi (fun _ => Except.ok ["Referensi : C9".data])
        [("doc.pdf".data, [0])] =
      [{ original_name := "doc.pdf".data, new_name := "C9.pdf".data,
         status := okStatus, bytes := [0] }] ∧
    ("C9.pdf".data : Str) ≠ (noRefPre ++ stem "doc.pdf".data) ++ pdfExt ∧
    okStatus ≠ noRefStatus := by
  exact ⟨by decide, by decide, by decide, by decide⟩

/-! ### C10: an all-whitespace capture behaves as `not found` -/

/-- C10: when the pattern matches but the captured group strips to the empty
string, `extract_referensi_from_bytes` returns `some ""`, which Python's
`if referensi:` treats exactly like `None`: the document gets the
`NO-REFERENSI-` fallback base and status.  The page `Referensi: \n` is a
concrete input whose capture is `"\n"`, stripped to empty. -/
theorem c10_empty_capture_fallback :
    (∀ (parse : List Nat → Except Unit (List Str)) (nm : Str) (raw : List Nat),
      extract_referensi_from_bytes parse raw = some ([] : Str) →
      docBase1 parse nm raw = (noRefPre ++ stem nm, noRefStatus)) ∧
    extract_referensi_from_bytes
      (fun _ => Except.ok ["Referensi: \n".data]) [0] = some ([] : Str) ∧
    processReferensi (fun _ => Except.ok ["Referensi: \n".data])
        [("a.pdf".data, [0])] =
      [{ original_name := "a.pdf".data,
         new_name := (noRefPre ++ stem "a.pdf".data) ++ pdfExt,
         status := noRefStatus, bytes := [0] }] := by
  refine ⟨?_, by decide, by decide⟩
  intro parse nm raw h
  unfold docBase1
  rw [h]
  rfl

/-- C10 witness: the general fallback rule applied at the concrete input. -/
theorem c10_empty_capture_fallback_witness :
    docBase1 (fun _ => Except.ok ["Referensi: \n".data]) "a.pdf".data [0] =
      (noRefPre ++ stem "a.pdf".data, noRefStatus) :=
  c10_empty_capture_fallback.1 _ _ _ (by decide)

/-! ### C2: extraction-failure handling in the two profiles -/

theorem extract_ref_none_of_error {parse : List Nat → Except Unit (List Str)}
    {raw : List Nat} (h : parse raw = Except.error ()) :
    extract_referensi_from_bytes parse raw = none := by
  unfold extract_referensi_from_bytes
  rw [h]

theorem tab1Go_length (parse : List Nat → Except Unit (List Str)) :
    ∀ (docs : List (Str × List Nat)) (counts : Str → Nat),
    (tab1Go parse counts docs).length = docs.length := by
  intro docs
  induction docs with
  | nil => intro counts; rfl
  | cons d rest ih =>
    intro counts
    obtain ⟨nm, raw⟩ := d
    simp only [tab1Go, List.length_cons, ih]

theorem extract_uni_error {parse : List Nat → Except Unit (List Str)}
    {raw : List Nat} (h : parse raw = Except.error ()) :
    extract_unifikasi_fields parse raw = Except.error () := by
  unfold extract_unifikasi_fields
  rw [h]

theorem docBase2_error {parse : List Nat → Except Unit (List Str)}
    {nm : Str} {raw : List Nat} (h : parse raw = Except.error ()) :
    docBase2 parse nm raw = Except.error () := by
  unfold docBase2
  rw [extract_uni_error h]

theorem docBase2_ok {parse : List Nat → Except Unit (List Str)}
    (nm : Str) {raw : List Nat} {pages : List Str}
    (h : parse raw = Except.ok pages) :
    ∃ bs, docBase2 parse nm raw = Except.ok bs := by
  unfold docBase2 extract_unifikasi_fields
  rw [h]
  exact ⟨_, rfl⟩

theorem tab2Go_error (parse : List Nat → Except Unit (List Str)) :
    ∀ (docs : List (Str × List Nat)) (counts : Str → Nat) (nm : Str)
      (raw : List Nat),
    (nm, raw) ∈ docs → parse raw = Except.error () →
    tab2Go parse counts docs = Except.error () := by
  intro docs
  induction docs with
  | nil => intro counts nm raw hmem _; simp at hmem
  | cons d rest ih =>
    intro counts nm raw hmem herr
    obtain ⟨nm0, raw0⟩ := d
    rcases List.mem_cons.1 hmem with hhd | htl
    · have hr : raw0 = raw := congrArg Prod.snd hhd.symm
      subst hr
      simp only [tab2Go]
      rw [docBase2_error herr]
    · simp only [tab2Go]
      cases hdb : docBase2 parse nm0 raw0 with
      | error e => cases e; rfl
      | ok bs =>
        dsimp only
        rw [ih _ nm raw htl herr]

theorem tab2Go_ok (parse : List Nat → Except Unit (List Str)) :
    ∀ (docs : List (Str × List Nat)) (counts : Str → Nat),
    (∀ d ∈ docs, ∃ pages, parse d.2 = Except.ok pages) →
    ∃ recs, tab2Go parse counts docs = Except.ok recs ∧
      recs.length = docs.length := by
  intro docs
  induction docs with
  | nil => intro counts _; exact ⟨[], rfl, rfl⟩
  | cons d rest ih =>
    intro counts hok
    obtain ⟨nm0, raw0⟩ := d
    obtain ⟨pages, hp⟩ := hok (nm0, raw0) (List.mem_cons_self _ _)
    have hp' : parse raw0 = Except.ok pages := hp
    obtain ⟨bs, hbs⟩ := docBase2_ok nm0 hp'
    obtain ⟨recs, hr, hlen⟩ :=
      ih (fun t => if t = sanitize2 bs.1 then counts (sanitize2 bs.1) + 1
        else counts t) (fun x hx => hok x (List.mem_cons_of_mem _ hx))
    refine ⟨Record.mk nm0 (mkName (sanitize2 bs.1) (counts (sanitize2 bs.1) + 1))
      bs.2 raw0 :: recs, ?_, ?_⟩
    · simp only [tab2Go]
      rw [hbs]
      dsimp only
      rw [hr]
    · simp [hlen]

/-- C2 (amended): in the Referensi profile a collaborator failure is recovered
locally — the extractor reports `none`, the document gets the fallback base
name and status, and a record is still produced for every document; in the
Unifikasi profile, however, `extract_unifikasi_fields` has no `try`/`except`,
so a collaborator failure on any document propagates and aborts the whole
batch (no records at all), refuting the claim's `in both profiles`; when every
document parses, the Unifikasi batch produces one record per document. -/
theorem c2_extraction_failure (parse : List Nat → Except Unit (List Str))
    (docs : List (Str × List Nat)) (nm : Str) (raw : List Nat) :
    (parse raw = Except.error () →
      extract_referensi_from_bytes parse raw = none) ∧
    (parse raw = Except.error () →
      docBase1 parse nm raw = (noRefPre ++ stem nm, noRefStatus)) ∧
    (processReferensi parse docs).length = docs.length ∧
    ((nm, raw) ∈ docs → parse raw = Except.error () →
      processUnifikasi parse docs = Except.error ()) ∧
    ((∀ d ∈ docs, ∃ pages, parse d.2 = Except.ok pages) →
      ∃ recs, processUnifikasi parse docs = Except.ok recs ∧
        recs.length = docs.length) := by
  refine ⟨?_, ?_, tab1Go_length parse docs _, ?_, ?_⟩
  · exact extract_ref_none_of_error
  · intro h
    exact docBase1_fallback (extract_ref_none_of_error h)
  · intro hmem herr
    exact tab2Go_error parse docs _ nm raw hmem herr
  · intro hok
    exact tab2Go_ok parse docs _ hok

/-- C2 witness: the general statement applied to a failing one-document batch. -/
theorem c2_extraction_failure_witness :
    docBase1 (fun _ => Except.error ()) "a.pdf".data [0] =
      (noRefPre ++ stem "a.pdf".data, noRefStatus) :=
  (c2_extraction_failure (fun _ => Except.error ()) [] "a.pdf".data [0]).2.1 rfl

/-- C2 counterexample: with a collaborator that fails on the document's bytes,
the Unifikasi batch aborts with no record at all, while the Referensi batch
still produces the fallback record for the same input. -/
theorem c2_counterexample :
    processUnifikasi (fun _ => Except.error ()) [("a.pdf".data, [0])] =
      Except.error () ∧
    processReferensi (fun _ => Except.error ()) [("a.pdf".data, [0])] =
      [{ original_name := "a.pdf".data,
         new_name := (noRefPre ++ stem "a.pdf".data) ++ pdfExt,
         status := noRefStatus, bytes := [0] }] := by
  exact ⟨rfl, by decide⟩

/-! ### C3 and C9: resolver law, profile decompositions, and the archive -/

theorem tab2Go_names (parse : List Nat → Except Unit (List Str)) :
    ∀ (docs : List (Str × List Nat)) (counts : Str → Nat) (recs : List Record),
    tab2Go parse counts docs = Except.ok recs →
    recs.map (fun r => r.new_name) =
      resolve counts (docs.map (fun d => sanitize2 (base2Of parse d.1 d.2))) := by
  intro docs
  induction docs with
  | nil =>
    intro counts recs h
    have h2 : Except.ok ([] : List Record) = Except.ok recs := h
    have h3 : ([] : List Record) = recs := Except.ok.inj h2
    rw [← h3]
    rfl
  | cons d rest ih =>
    intro counts recs h
    obtain ⟨nm0, raw0⟩ := d
    simp only [tab2Go] at h
    cases hdb : docBase2 parse nm0 raw0 with
    | error e => rw [hdb] at h; simp at h
    | ok bs =>
      rw [hdb] at h
      dsimp only at h
      cases hrec : tab2Go parse
          (fun t => if t = sanitize2 bs.1 then counts (sanitize2 bs.1) + 1
            else counts t) rest with
      | error e => rw [hrec] at h; simp at h
      | ok rs =>
        rw [hrec] at h
        dsimp only at h
        have hrecs : recs = Record.mk nm0
            (mkName (sanitize2 bs.1) (counts (sanitize2 bs.1) + 1)) bs.2 raw0
            :: rs := (Except.ok.inj h).symm
        subst hrecs
        have hb2 : base2Of parse nm0 raw0 = bs.1 := by
          unfold base2Of
          rw [hdb]
        simp only [List.map_cons, hb2, resolve]
        exact congrArg _ (ih _ rs hrec)

theorem tab2Go_get?_base (parse : List Nat → Except Unit (List Str)) :
    ∀ (docs : List (Str × List Nat)) (counts : Str → Nat) (recs : List Record)
      (i : Nat) (nm : Str) (raw : List Nat),
    tab2Go parse counts docs = Except.ok recs →
    docs.get? i = some (nm, raw) →
    ∃ r bs, docBase2 parse nm raw = Except.ok bs ∧ recs.get? i = some r ∧
      r.original_name = nm ∧ r.bytes = raw ∧ r.status = bs.2 := by
  intro docs
  induction docs with
  | nil => intro counts recs i nm raw _ hg; simp at hg
  | cons d rest ih =>
    intro counts recs i nm raw h hg
    obtain ⟨nm0, raw0⟩ := d
    simp only [tab2Go] at h
    cases hdb : docBase2 parse nm0 raw0 with
    | error e => rw [hdb] at h; simp at h
    | ok bs =>
      rw [hdb] at h
      dsimp only at h
      cases hrec : tab2Go parse
          (fun t => if t = sanitize2 bs.1 then counts (sanitize2 bs.1) + 1
            else counts t) rest with
      | error e => rw [hrec] at h; simp at h
      | ok rs =>
        rw [hrec] at h
        dsimp only at h
        have hrecs : recs = Record.mk nm0
            (mkName (sanitize2 bs.1) (counts (sanitize2 bs.1) + 1)) bs.2 raw0
            :: rs := (Except.ok.inj h).symm
        subst hrecs
        cases i with
        | zero =>
          have h12 : nm0 = nm ∧ raw0 = raw := by simpa using hg
          obtain ⟨ha, hb⟩ := h12
          subst ha
          subst hb
          exact ⟨_, bs, hdb, rfl, rfl, rfl, rfl⟩
        | succ i =>
          simp only [List.get?_cons_succ] at hg ⊢
          exact ih _ rs i nm raw hrec hg

theorem foldl_zip_acc : ∀ (rs : List Record) (acc : List (Str × List Nat)),
    rs.foldl (fun acc r => acc ++ [(r.new_name, r.bytes)]) acc =
      acc ++ rs.map (fun r => (r.new_name, r.bytes)) := by
  intro rs
  induction rs with
  | nil => intro acc; simp
  | cons r rest ih =>
    intro acc
    simp only [List.foldl_cons, List.map_cons]
    rw [ih]
    simp

theorem zipEntries_map (rs : List Record) :
    zipEntries rs = rs.map (fun r => (r.new_name, r.bytes)) := by
  unfold zipEntries
  rw [foldl_zip_acc]
  rfl

/-- C3: in both profiles the collision resolver names the `N`-th occurrence
(1-indexed, counting only occurrences of the same sanitized base `S` in upload
order) `S.pdf` when `N = 1` and `S_{N-1}.pdf` when `N > 1`; both profile loops
produce exactly the resolver's names over their sanitized base-name
sequences. -/
theorem c3_suffix_law (bases : List Str) (i : Nat) (S : Str)
    (parse : List Nat → Except Unit (List Str)) (docs : List (Str × List Nat))
    (recs : List Record) (hS : bases.get? i = some S) :
    ((finalNames bases).get? i =
      some (if occCount S (bases.take (i + 1)) = 1 then S ++ pdfExt
        else S ++ '_' :: (natStr (occCount S (bases.take (i + 1)) - 1) ++ pdfExt))) ∧
    ((processReferensi parse docs).map (fun r => r.new_name) =
      finalNames (docs.map (fun d => sanitize1 (docBase1 parse d.1 d.2).1))) ∧
    (processUnifikasi parse docs = Except.ok recs →
      recs.map (fun r => r.new_name) =
        finalNames (docs.map (fun d => sanitize2 (base2Of parse d.1 d.2)))) := by
  refine ⟨?_, tab1Go_names parse docs _, fun h => tab2Go_names parse docs _ recs h⟩
  have hres := resolve_get? bases (fun _ => 0) i S hS
  rw [show finalNames bases = resolve (fun _ => 0) bases from rfl, hres]
  simp [mkName]

/-- C3 witness: the third document repeats the first base and gets `_1`. -/
theorem c3_suffix_law_witness :
    (finalNames [['a'], ['b'], ['a']]).get? 2 =
      some (if occCount ['a'] ([['a'], ['b'], ['a']].take 3) = 1
        then ['a'] ++ pdfExt
        else ['a'] ++ '_' ::
          (natStr (occCount ['a'] ([['a'], ['b'], ['a']].take 3) - 1) ++ pdfExt)) :=
  (c3_suffix_law [['a'], ['b'], ['a']] 2 ['a'] (fun _ => Except.error ()) [] []
    (by decide)).1

/-- C9: the archive holds exactly one entry per record, in batch order, keyed
by the record's final name with the record's (original, untouched) bytes; for
both profiles the `i`-th archive entry comes from the `i`-th uploaded
document and carries its upload bytes. -/
theorem c9_archive_roundtrip (rs recs : List Record)
    (parse : List Nat → Except Unit (List Str)) (docs : List (Str × List Nat))
    (i : Nat) (nm : Str) (raw : List Nat) :
    (zipEntries rs = rs.map (fun r => (r.new_name, r.bytes))) ∧
    ((zipEntries rs).length = rs.length) ∧
    (docs.get? i = some (nm, raw) →
      ∃ r, (processReferensi parse docs).get? i = some r ∧
        (zipEntries (processReferensi parse docs)).get? i =
          some (r.new_name, r.bytes) ∧
        r.original_name = nm ∧ r.bytes = raw) ∧
    (processUnifikasi parse docs = Except.ok recs →
      docs.get? i = some (nm, raw) →
      ∃ r, recs.get? i = some r ∧
        (zipEntries recs).get? i = some (r.new_name, r.bytes) ∧
        r.original_name = nm ∧ r.bytes = raw) := by
  refine ⟨zipEntries_map rs, ?_, ?_, ?_⟩
  · rw [zipEntries_map rs]
    simp
  · intro hdoc
    obtain ⟨r, hr, ho, hb, _⟩ :=
      tab1Go_get?_base parse docs (fun _ => 0) i nm raw hdoc
    refine ⟨r, hr, ?_, ho, hb⟩
    rw [zipEntries_map, List.get?_map]
    rw [show (processReferensi parse docs).get? i = some r from hr]
    rfl
  · intro hok hdoc
    obtain ⟨r, bs, _, hr, ho, hb, _⟩ :=
      tab2Go_get?_base parse docs (fun _ => 0) recs i nm raw hok hdoc
    refine ⟨r, hr, ?_, ho, hb⟩
    rw [zipEntries_map, List.get?_map, hr]
    rfl

/-- C9 witness: the per-index form applied to a one-document batch. -/
theorem c9_archive_roundtrip_witness :
    ∃ r, (processReferensi (fun _ => Except.error ())
        [("a.pdf".data, [3, 4])]).get? 0 = some r ∧
      (zipEntries (processReferensi (fun _ => Except.error ())
        [("a.pdf".data, [3, 4])])).get? 0 = some (r.new_name, r.bytes) ∧
      r.original_name = "a.pdf".data ∧ r.bytes = [3, 4] :=
  (c9_archive_roundtrip [] [] (fun _ => Except.error ())
    [("a.pdf".data, [3, 4])] 0 "a.pdf".data [3, 4]).2.2.1 (by decide)

/-! ### C6: Unifikasi name synthesis -/

theorem neEmpty_isEmpty {s : Str} (h : s ≠ []) : (!s.isEmpty) = true := by
  cases s with
  | nil => exact absurd rfl h
  | cons c t => rfl

/-- C6 (amended): with all three fields extracted non-empty the base name is
`{masa} / {nama} / {nomor}` with status `OK`, otherwise `NO-DATA-{stem}` with
status `Incomplete fields`; and the claim's example text holds once a
character outside the `nama` capture class (here a comma) terminates the name
field: `Masa Pajak 11-2025, A.2 Nama ACME CORP, AB12CD34 11-2025` yields
`112025 / ACME CORP / AB12CD34`.  With the filler written literally as
` ... `, the greedy `nama` capture swallows the rest of the line, refuting the
claim's example (`c6_counterexample`). -/
theorem c6_unifikasi_naming (parse : List Nat → Except Unit (List Str))
    (nm : Str) (raw : List Nat) (ms na no : Str) :
    (extract_unifikasi_fields parse raw = Except.ok (some ms, some na, some no) →
      ms ≠ [] → na ≠ [] → no ≠ [] →
      docBase2 parse nm raw =
        Except.ok (ms ++ sepSlash ++ na ++ sepSlash ++ no, okStatus)) ∧
    (∀ masa nama nomor,
      extract_unifikasi_fields parse raw = Except.ok (masa, nama, nomor) →
      (truthy masa && truthy nama && truthy nomor) = false →
      docBase2 parse nm raw = Except.ok (noDataPre ++ stem nm, incStatus)) ∧
    docBase2 (fun _ => Except.ok
        ["Masa Pajak 11-2025, A.2 Nama ACME CORP, AB12CD34 11-2025".data])
        "x.pdf".data [0] =
      Except.ok ("112025 / ACME CORP / AB12CD34".data, okStatus) := by
  refine ⟨?_, ?_, rfl⟩
  · intro hex h1 h2 h3
    unfold docBase2
    rw [hex]
    dsimp only
    have hcond : (!ms.isEmpty && !na.isEmpty && !no.isEmpty) = true := by
      rw [neEmpty_isEmpty h1, neEmpty_isEmpty h2, neEmpty_isEmpty h3]
      rfl
    rw [if_pos hcond]
  · intro masa nama nomor hex hfalse
    unfold docBase2
    rw [hex]
    dsimp only
    cases masa with
    | none => rfl
    | some ms' =>
      cases nama with
      | none => rfl
      | some na' =>
        cases nomor with
        | none => rfl
        | some no' =>
          have hf : (!ms'.isEmpty && !na'.isEmpty && !no'.isEmpty) = false :=
            hfalse
          have hneg : ¬ ((!ms'.isEmpty && !na'.isEmpty && !no'.isEmpty) = true) := by
            rw [hf]
            simp
          dsimp only
          rw [if_neg hneg]

/-- C6 witness: the branch rule applied to the comma-separated example text. -/
theorem c6_unifikasi_naming_witness :
    docBase2 (fun _ => Except.ok
        ["Masa Pajak 11-2025, A.2 Nama ACME CORP, AB12CD34 11-2025".data])
        "x.pdf".data [0] =
      Except.ok ("112025".data ++ sepSlash ++ "ACME CORP".data ++ sepSlash ++
        "AB12CD34".data, okStatus) :=
  (c6_unifikasi_naming (fun _ => Except.ok
      ["Masa Pajak 11-2025, A.2 Nama ACME CORP, AB12CD34 11-2025".data])
      "x.pdf".data [0] "112025".data "ACME CORP".data "AB12CD34".data).1
    rfl (by decide) (by decide) (by decide)

/-- C6 counterexample: with the `...` filler taken literally, the greedy
`nama` capture runs to the end of the text, so the base name is not the
claimed `112025 / ACME CORP / AB12CD34`. -/
theorem c6_counterexample :
    docBase2 (fun _ => Except.ok
        ["Masa Pajak 11-2025 ... A.2 Nama ACME CORP ... AB12CD34 11-2025".data])
        "x.pdf".data [0] =
      Except.ok ("112025 / ACME CORP ... AB12CD34 11-2025 / AB12CD34".data,
        okStatus) ∧
    ("112025 / ACME CORP ... AB12CD34 11-2025 / AB12CD34".data : Str) ≠
      "112025 / ACME CORP / AB12CD34".data := by
  exact ⟨rfl, by decide⟩

/-! ### C7: the character class of the extracted `nama` -/

theorem ws_inCn {c : Char} (h : isWs c = true) : inCn c = true := by
  simp [inCn, h]

theorem getLast?_mem_of {l : Str} {a : Char} (h : l.getLast? = some a) :
    a ∈ l := by
  rw [← List.head?_reverse] at h
  have hm : a ∈ l.reverse := by
    cases hr : l.reverse with
    | nil => rw [hr] at h; simp at h
    | cons c t =>
      rw [hr] at h
      have hac : c = a := by injection h
      rw [← hac]
      exact List.mem_cons_self c t
  exact List.mem_reverse.1 hm

theorem namaCapture_cases {u s : Str} (h : namaCapture u = some s) :
    (∃ x : Str, s = x.takeWhile inCn) ∨
      (∃ wc, isWs wc = true ∧ s = [wc]) := by
  unfold namaCapture at h
  dsimp only at h
  split at h
  · next heq =>
    rcases Option.map_eq_some'.1 h with ⟨wc, hgl, hs⟩
    right
    exact ⟨wc, List.mem_takeWhile_imp (getLast?_mem_of hgl), hs.symm⟩
  · next c0 rest heq =>
    split at h
    · split at h
      · left
        exact ⟨_, (Option.some.inj h).symm⟩
      · split at h
        · next wc hw2 =>
          right
          exact ⟨wc, List.mem_takeWhile_imp (getLast?_mem_of hw2),
            (Option.some.inj h).symm⟩
        · next hw2 =>
          split at h
          · left
            exact ⟨_, (Option.some.inj h).symm⟩
          · split at h
            · next wc hw1 =>
              right
              exact ⟨wc, List.mem_takeWhile_imp (getLast?_mem_of hw1),
                (Option.some.inj h).symm⟩
            · next => simp at h
    · split at h
      · left
        exact ⟨_, (Option.some.inj h).symm⟩
      · split at h
        · next wc hw1 =>
          right
          exact ⟨wc, List.mem_takeWhile_imp (getLast?_mem_of hw1),
            (Option.some.inj h).symm⟩
        · next => simp at h

theorem attemptNama_cases {t s : Str} (h : attemptNama t = some s) :
    (∃ x : Str, s = x.takeWhile inCn) ∨
      (∃ wc, isWs wc = true ∧ s = [wc]) := by
  unfold attemptNama at h
  dsimp only at h
  split at h
  · split at h
    · split at h
      · simp at h
      · split at h
        · exact namaCapture_cases h
        · simp at h
    · simp at h
  · simp at h

theorem searchNama_cases : ∀ {t s : Str}, searchNama t = some s →
    (∃ x : Str, s = x.takeWhile inCn) ∨
      (∃ wc, isWs wc = true ∧ s = [wc]) := by
  intro t
  induction t with
  | nil => intro s h; simp [searchNama] at h
  | cons c rest ih =>
    intro s h
    cases hat : attemptNama (c :: rest) with
    | some g =>
      have hg : searchNama (c :: rest) = some g := by
        rw [show searchNama (c :: rest) = (match attemptNama (c :: rest) with
          | some g => some g
          | none => searchNama rest) from rfl, hat]
      rw [hg] at h
      exact (Option.some.inj h) ▸ attemptNama_cases hat
    | none =>
      have hg : searchNama (c :: rest) = searchNama rest := by
        rw [show searchNama (c :: rest) = (match attemptNama (c :: rest) with
          | some g => some g
          | none => searchNama rest) from rfl, hat]
      rw [hg] at h
      exact ih h

/-- C7 (amended): whenever the Unifikasi extractor reports a `nama` value,
every character of it lies in the capture class as compiled with
`re.IGNORECASE` — letters of either case, digits, whitespace, `.`, `&`, `-`,
parentheses.  The unamended claim (no lowercase letters can appear) is
refuted by `c7_counterexample`: `re.IGNORECASE` makes `[A-Z0-9...]` match
lowercase letters too. -/
theorem c7_nama_character_class (parse : List Nat → Except Unit (List Str))
    (raw : List Nat) (masa nama nomor : Option Str) (s : Str)
    (hex : extract_unifikasi_fields parse raw = Except.ok (masa, nama, nomor))
    (hs : nama = some s) : ∀ c ∈ s, inCn c = true := by
  unfold extract_unifikasi_fields at hex
  cases hp : parse raw with
  | error e => rw [hp] at hex; simp at hex
  | ok pages =>
    rw [hp] at hex
    dsimp only at hex
    have h3 := Except.ok.inj hex
    have hna : (searchNama (pages.foldl (fun a p => a ++ p) [])).map pyStrip =
        nama := congrArg (fun p => p.2.1) h3
    rw [hs] at hna
    rcases Option.map_eq_some'.1 hna with ⟨s0, hs0, hstrip⟩
    intro c hc
    have hc0 : c ∈ s0 := mem_of_mem_pyStrip (hstrip ▸ hc)
    rcases searchNama_cases hs0 with ⟨x, hx⟩ | ⟨wc, hwc, hx⟩
    · exact List.mem_takeWhile_imp (hx ▸ hc0)
    · have : c = wc := by
        rw [hx] at hc0
        simpa using hc0
      rw [this]
      exact ws_inCn hwc

/-- C7 witness: the class property at a concrete extraction and character. -/
theorem c7_nama_character_class_witness : inCn 'a' = true :=
  c7_nama_character_class (fun _ => Except.ok ["A.2 Nama acme".data]) [0]
    none (some "acme".data) none "acme".data rfl rfl 'a' (by decide)

/-- C7 counterexample: the extracted `nama` of `A.2 Nama acme` is `acme`,
which consists of lowercase letters, refuting the claim that the captured
value never contains one. -/
theorem c7_counterexample :
    extract_unifikasi_fields (fun _ => Except.ok ["A.2 Nama acme".data]) [0] =
      Except.ok (none, some "acme".data, none) ∧
    'a' ∈ ("acme".data : Str) ∧ 'a'.isLower = true := by
  exact ⟨rfl, by decide, by decide⟩

end BunnyApp
